import Mathlib

/-!
Verification of the tic-tac-toe rules engine and game-tree builder.

The Rust source (`src/game.rs`, `src/game_tree.rs`) is embedded shallowly:

* `Piece`, `Winner`, `Board`, `Game` mirror the Rust data types
  (`Array2D<Option<Piece>>` becomes `Fin 3 → Fin 3 → Option Piece`);
* `to_winner`, `Game.make_move`, `Game.valid_moves`, `next_games` mirror the
  rules engine (the in-place mutation of `make_move` becomes an explicit
  result/state pair, so that "board unchanged on failure" is statable);
* `GameTree`, `GameTree.from`, `GameTree.x_wins` / `o_wins` / `ties` mirror
  the tree builder, with the `f32` statistics embedded as exact rationals;
* the `Display` instances are embedded as string renderers parameterised by
  the number formatter.
-/

/-- The two players' marks (`Piece` in `game.rs`). -/
inductive Piece : Type where
  | X : Piece
  | O : Piece
deriving DecidableEq, Repr

/-- `Piece::other` from `game.rs`. -/
def Piece.other : Piece → Piece
  | Piece.X => Piece.O
  | Piece.O => Piece.X

/-- The possible outcomes (`Winner` in `game.rs`). -/
inductive Winner : Type where
  | X : Winner
  | O : Winner
  | Tie : Winner
deriving DecidableEq, Repr

/-- `impl From<Piece> for Winner` from `game.rs`. -/
def pieceWinner : Piece → Winner
  | Piece.X => Winner.X
  | Piece.O => Winner.O

/-- `Board = Array2D<Option<Piece>>` with the fixed 3×3 dimensions. -/
def Board : Type := Fin 3 → Fin 3 → Option Piece

instance : DecidableEq Board := by
  unfold Board
  infer_instance

/-- Writing one cell of the board (the effect of `self.board[(row, col)] = v`). -/
def setCell (b : Board) (r c : Fin 3) (v : Option Piece) : Board :=
  fun i j => if i = r ∧ j = c then v else b i j

/-- The row check of `to_winner`: `first = board[(i, 0)]`,
`first.is_some() && row.all(|&p| p == first)`. -/
def checkRow (b : Board) (i : Fin 3) : Option Winner :=
  let first := b i 0
  if first.isSome ∧ ∀ j, b i j = first then first.map pieceWinner else none

/-- The column check of `to_winner`: `first = board[(0, i)]`,
`first.is_some() && col.all(|&p| p == first)`. -/
def checkCol (b : Board) (i : Fin 3) : Option Winner :=
  let first := b 0 i
  if first.isSome ∧ ∀ j, b j i = first then first.map pieceWinner else none

/-- The main-diagonal check of `to_winner`: `top_left = board[(0, 0)]` and
cells `(i, i)` for `i` in `1..3`. -/
def checkMainDiag (b : Board) : Option Winner :=
  let top_left := b 0 0
  if top_left.isSome ∧ b 1 1 = top_left ∧ b 2 2 = top_left then
    top_left.map pieceWinner
  else none

/-- The anti-diagonal check of `to_winner`: `top_right = board[(0, 2)]` and
cells `(i, 2 - i)` for `i` in `1..3`. -/
def checkAntiDiag (b : Board) : Option Winner :=
  let top_right := b 0 2
  if top_right.isSome ∧ b 1 1 = top_right ∧ b 2 0 = top_right then
    top_right.map pieceWinner
  else none

/-- `to_winner` from `game.rs`: rows, then columns, then the main diagonal,
then the anti-diagonal, each with an early return; then the tie test. -/
def to_winner (b : Board) : Option Winner :=
  match (List.finRange 3).findSome? (checkRow b) with
  | some w => some w
  | none =>
    match (List.finRange 3).findSome? (checkCol b) with
    | some w => some w
    | none =>
      match checkMainDiag b with
      | some w => some w
      | none =>
        match checkAntiDiag b with
        | some w => some w
        | none =>
          if ∀ i, ∀ j, (b i j).isSome then some Winner.Tie else none

/-- `Game` from `game.rs`. -/
structure Game : Type where
  board : Board
  current_piece : Piece
  winner : Option Winner
deriving DecidableEq

/-- `Game::new`: the all-empty board, X to move, no winner. -/
def Game.new : Game :=
  { board := fun _ _ => none, current_piece := Piece.X, winner := none }

/-- `Game::is_finished`. -/
def Game.is_finished (g : Game) : Bool :=
  g.winner.isSome

/-- `MoveError` from `game.rs`. -/
inductive MoveError : Type where
  | GameAlreadyOver : MoveError
  | InvalidPosition (row col : Nat) : MoveError
  | TileNotEmpty (other_piece : Piece) (row col : Nat) : MoveError
deriving DecidableEq, Repr

/-- `Game::make_move` from `game.rs`.  The Rust method mutates `self` and
returns `Result<(), MoveError>`; here it returns the pair of the error (none
meaning `Ok(())`) and the state of the game afterwards, so that the absence
of side effects on failure is part of the function's value. -/
def Game.make_move (g : Game) (row col : Nat) : Option MoveError × Game :=
  if g.is_finished then (some MoveError.GameAlreadyOver, g)
  else if h : 3 ≤ row ∨ 3 ≤ col then (some (MoveError.InvalidPosition row col), g)
  else
    let r : Fin 3 := ⟨row, by omega⟩
    let c : Fin 3 := ⟨col, by omega⟩
    match g.board r c with
    | some piece => (some (MoveError.TileNotEmpty piece row col), g)
    | none =>
      let newBoard := setCell g.board r c (some g.current_piece)
      (none,
        { board := newBoard
          current_piece := g.current_piece.other
          winner := to_winner newBoard })

/-- `Game::valid_moves` from `game.rs`: scan rows in ascending order, and in
each row the columns in ascending order, collecting the empty cells. -/
def Game.valid_moves (g : Game) : List (Fin 3 × Fin 3) :=
  (List.finRange 3).flatMap fun row =>
    (List.finRange 3).filterMap fun col =>
      if g.board row col = none then some (row, col) else none

/-- `next_games` from `game.rs`: for each valid move, clone the game, make
the move, and collect the results.  The Rust `flat_map` keeps the `Ok`
results (the `assert!` on failure is a panic, not a value, so the embedding
simply drops failures; the claims show failures cannot occur here). -/
def next_games (g : Game) : List Game :=
  g.valid_moves.filterMap fun rc =>
    match g.make_move rc.1.val rc.2.val with
    | (none, g2) => some g2
    | (some _, _) => none

/-- The number of empty cells of a game's board (the recursion measure of
the tree builder: each successful move fills one cell). -/
def emptyCount (g : Game) : Nat :=
  (Finset.univ.filter fun ij : Fin 3 × Fin 3 => g.board ij.1 ij.2 = none).card

/-- `GameTree` / `Edge` from `game_tree.rs`.  An edge is the quadruple of the
child together with the cached `x_wins`, `o_wins`, `ties` statistics (the
Rust `f32` values are embedded as exact rationals). -/
inductive GameTree : Type where
  | mk (game : Game) (edges : List (GameTree × Rat × Rat × Rat)) : GameTree

/-- The edges of a `GameTree` node. -/
abbrev Edge : Type := GameTree × Rat × Rat × Rat

/-- `Edge::child`. -/
def Edge.child (e : Edge) : GameTree := e.1

/-- The cached `Edge::x_wins` statistic. -/
def Edge.x_wins (e : Edge) : Rat := e.2.1

/-- The cached `Edge::o_wins` statistic. -/
def Edge.o_wins (e : Edge) : Rat := e.2.2.1

/-- The cached `Edge::ties` statistic. -/
def Edge.ties (e : Edge) : Rat := e.2.2.2

/-- The `game` field of a `GameTree` node. -/
def GameTree.game : GameTree → Game
  | GameTree.mk g _ => g

/-- The `edges` field of a `GameTree` node. -/
def GameTree.edges : GameTree → List Edge
  | GameTree.mk _ es => es

/-- `GameTree::x_wins` from `game_tree.rs`: 1 on a finished game won by X,
0 on any other finished game, else the sum of the children's values divided
by the number of edges. -/
def GameTree.x_wins : GameTree → Rat
  | GameTree.mk g es =>
    if g.is_finished then (if g.winner = some Winner.X then 1 else 0)
    else (es.attach.map fun e => e.1.1.x_wins).sum / (es.length : Rat)
decreasing_by
  obtain ⟨⟨t, q⟩, hmem⟩ := e
  have h1 := List.sizeOf_lt_of_mem hmem
  simp only [Prod.mk.sizeOf_spec] at h1
  simp only [GameTree.mk.sizeOf_spec]
  omega

/-- `GameTree::o_wins` from `game_tree.rs`. -/
def GameTree.o_wins : GameTree → Rat
  | GameTree.mk g es =>
    if g.is_finished then (if g.winner = some Winner.O then 1 else 0)
    else (es.attach.map fun e => e.1.1.o_wins).sum / (es.length : Rat)
decreasing_by
  obtain ⟨⟨t, q⟩, hmem⟩ := e
  have h1 := List.sizeOf_lt_of_mem hmem
  simp only [Prod.mk.sizeOf_spec] at h1
  simp only [GameTree.mk.sizeOf_spec]
  omega

/-- `GameTree::ties` from `game_tree.rs`. -/
def GameTree.ties : GameTree → Rat
  | GameTree.mk g es =>
    if g.is_finished then (if g.winner = some Winner.Tie then 1 else 0)
    else (es.attach.map fun e => e.1.1.ties).sum / (es.length : Rat)
decreasing_by
  obtain ⟨⟨t, q⟩, hmem⟩ := e
  have h1 := List.sizeOf_lt_of_mem hmem
  simp only [Prod.mk.sizeOf_spec] at h1
  simp only [GameTree.mk.sizeOf_spec]
  omega

/-- Quantification over `Fin 3` unfolded. -/
theorem forall_fin3 (P : Fin 3 → Prop) : (∀ j, P j) ↔ P 0 ∧ P 1 ∧ P 2 := by
  refine ⟨fun h => ⟨h 0, h 1, h 2⟩, fun h j => ?_⟩
  obtain ⟨h0, h1, h2⟩ := h
  fin_cases j <;> assumption

/-- Membership in `valid_moves` is exactly emptiness of the cell. -/
theorem mem_valid_moves (g : Game) (rc : Fin 3 × Fin 3) :
    rc ∈ g.valid_moves ↔ g.board rc.1 rc.2 = none := by
  obtain ⟨r, c⟩ := rc
  unfold Game.valid_moves
  simp only [List.mem_flatMap, List.mem_filterMap, List.mem_finRange, true_and]
  constructor
  · rintro ⟨row, col, h⟩
    split at h
    · obtain ⟨rfl, rfl⟩ := Prod.mk.injEq .. ▸ Option.some.injEq .. ▸ h
      simp_all
    · exact absurd h (by simp)
  · intro h
    exact ⟨r, c, by simp [h]⟩

/-- The state after a successful move at `(r, c)`: the current piece is
placed, the turn flips, and the winner is recomputed from the new board. -/
def successor (g : Game) (rc : Fin 3 × Fin 3) : Game :=
  { board := setCell g.board rc.1 rc.2 (some g.current_piece)
    current_piece := g.current_piece.other
    winner := to_winner (setCell g.board rc.1 rc.2 (some g.current_piece)) }

/-- `make_move` succeeds on an in-range empty cell of an unfinished game and
produces exactly the `successor` state. -/
theorem make_move_success (g : Game) (r c : Fin 3)
    (hf : g.is_finished = false) (he : g.board r c = none) :
    g.make_move r.val c.val = (none, successor g (r, c)) := by
  unfold Game.make_move
  have hr : r.val < 3 := r.isLt
  have hc : c.val < 3 := c.isLt
  rw [hf]
  simp only [Bool.false_eq_true, if_false]
  rw [dif_neg (by omega)]
  simp only [Fin.eta]
  rw [he]
  rfl

/-- A `filterMap` by a function that always succeeds is a `map`. -/
theorem filterMap_eq_map_of_forall {α β : Type} (l : List α) (f : α → Option β)
    (g : α → β) (h : ∀ a ∈ l, f a = some (g a)) : l.filterMap f = l.map g := by
  induction l with
  | nil => rfl
  | cons a l ih =>
    rw [List.filterMap_cons, h a (List.mem_cons_self a l), List.map_cons,
      ih fun b hb => h b (List.mem_cons_of_mem a hb)]

/-- On an unfinished game, `next_games` produces exactly one `successor`
state per valid move, in the same order. -/
theorem next_games_eq (g : Game) (hf : g.is_finished = false) :
    next_games g = g.valid_moves.map (successor g) := by
  unfold next_games
  refine filterMap_eq_map_of_forall _ _ _ fun rc hrc => ?_
  rw [make_move_success g rc.1 rc.2 hf ((mem_valid_moves g rc).mp hrc)]

/-- Filling an empty cell strictly decreases the number of empty cells. -/
theorem emptyCount_successor_lt (g : Game) (rc : Fin 3 × Fin 3)
    (he : g.board rc.1 rc.2 = none) :
    emptyCount (successor g rc) < emptyCount g := by
  unfold emptyCount successor
  apply Finset.card_lt_card
  rw [Finset.ssubset_iff_of_subset]
  · refine ⟨rc, by simpa using he, ?_⟩
    simp [setCell]
  · intro ij hij
    simp only [Finset.mem_filter, Finset.mem_univ, true_and, setCell] at hij ⊢
    by_cases h : ij.1 = rc.1 ∧ ij.2 = rc.2
    · rw [if_pos h] at hij
      exact absurd hij (by simp)
    · rwa [if_neg h] at hij

/-- Members of `next_games` have strictly fewer empty cells. -/
theorem emptyCount_lt_of_mem_next_games (g g2 : Game)
    (hf : g.is_finished = false) (h : g2 ∈ next_games g) :
    emptyCount g2 < emptyCount g := by
  rw [next_games_eq g hf] at h
  obtain ⟨rc, hrc, rfl⟩ := List.mem_map.mp h
  exact emptyCount_successor_lt g rc ((mem_valid_moves g rc).mp hrc)

/-- `GameTree::from` from `game_tree.rs` (`from` is a Lean keyword, hence
the name): a finished game gives a leaf; otherwise one edge per successor,
each caching the child's three statistics. -/
def GameTree.fromGame (g : Game) : GameTree :=
  if hf : g.is_finished then GameTree.mk g []
  else
    GameTree.mk g ((next_games g).attach.map fun g2 =>
      let child := GameTree.fromGame g2.1
      (child, child.x_wins, child.o_wins, child.ties))
termination_by emptyCount g
decreasing_by
  exact emptyCount_lt_of_mem_next_games g g2.1 (by simpa using hf) g2.2

/-- One-step unfolding of the tree builder, with the bookkeeping `attach`
removed. -/
theorem fromGame_eq (g : Game) :
    GameTree.fromGame g =
      if g.is_finished then GameTree.mk g []
      else
        GameTree.mk g ((next_games g).map fun g2 =>
          (GameTree.fromGame g2, (GameTree.fromGame g2).x_wins,
            (GameTree.fromGame g2).o_wins, (GameTree.fromGame g2).ties)) := by
  by_cases hf : g.is_finished
  · rw [GameTree.fromGame, dif_pos hf, if_pos hf]
  · rw [GameTree.fromGame, dif_neg hf, if_neg hf]
    congr 1
    simp only []
    rw [List.attach_map_val (next_games g) fun g2 =>
      (GameTree.fromGame g2, (GameTree.fromGame g2).x_wins,
        (GameTree.fromGame g2).o_wins, (GameTree.fromGame g2).ties)]

/-- One-step unfolding of `x_wins`, with `attach` removed. -/
theorem x_wins_mk (g : Game) (es : List Edge) :
    (GameTree.mk g es).x_wins =
      if g.is_finished then (if g.winner = some Winner.X then 1 else 0)
      else (es.map fun e => e.1.x_wins).sum / (es.length : Rat) := by
  by_cases hf : g.is_finished
  · rw [GameTree.x_wins, if_pos hf, if_pos hf]
  · rw [GameTree.x_wins, if_neg hf, if_neg hf,
      List.attach_map_val es fun e => e.1.x_wins]

/-- One-step unfolding of `o_wins`, with `attach` removed. -/
theorem o_wins_mk (g : Game) (es : List Edge) :
    (GameTree.mk g es).o_wins =
      if g.is_finished then (if g.winner = some Winner.O then 1 else 0)
      else (es.map fun e => e.1.o_wins).sum / (es.length : Rat) := by
  by_cases hf : g.is_finished
  · rw [GameTree.o_wins, if_pos hf, if_pos hf]
  · rw [GameTree.o_wins, if_neg hf, if_neg hf,
      List.attach_map_val es fun e => e.1.o_wins]

/-- One-step unfolding of `ties`, with `attach` removed. -/
theorem ties_mk (g : Game) (es : List Edge) :
    (GameTree.mk g es).ties =
      if g.is_finished then (if g.winner = some Winner.Tie then 1 else 0)
      else (es.map fun e => e.1.ties).sum / (es.length : Rat) := by
  by_cases hf : g.is_finished
  · rw [GameTree.ties, if_pos hf, if_pos hf]
  · rw [GameTree.ties, if_neg hf, if_neg hf,
      List.attach_map_val es fun e => e.1.ties]

/-- All nodes of a tree: the tree itself and, recursively, the nodes of the
children. -/
def GameTree.nodes : GameTree → List GameTree
  | GameTree.mk g es =>
    GameTree.mk g es :: (es.attach.map fun e => e.1.1.nodes).flatten
decreasing_by
  obtain ⟨⟨t, q⟩, hmem⟩ := e
  have h1 := List.sizeOf_lt_of_mem hmem
  simp only [Prod.mk.sizeOf_spec] at h1
  simp only [GameTree.mk.sizeOf_spec]
  omega

/-- One-step unfolding of `nodes`, with `attach` removed. -/
theorem nodes_mk (g : Game) (es : List Edge) :
    (GameTree.mk g es).nodes =
      GameTree.mk g es :: (es.map fun e => e.1.nodes).flatten := by
  rw [GameTree.nodes, List.attach_map_val es fun e => e.1.nodes]

/-- Every tree is among its own nodes. -/
theorem self_mem_nodes (t : GameTree) : t ∈ t.nodes := by
  obtain ⟨g, es⟩ := t
  rw [nodes_mk]
  exact List.mem_cons_self _ _

/-- Membership in `nodes`: the root itself, or a node of some child. -/
theorem mem_nodes_iff (n : GameTree) (g : Game) (es : List Edge) :
    n ∈ (GameTree.mk g es).nodes ↔
      n = GameTree.mk g es ∨ ∃ e ∈ es, n ∈ e.1.nodes := by
  rw [nodes_mk]
  simp only [List.mem_cons, List.mem_flatten, List.mem_map]
  constructor
  · rintro (rfl | ⟨l, ⟨e, he, rfl⟩, hn⟩)
    · exact Or.inl rfl
    · exact Or.inr ⟨e, he, hn⟩
  · rintro (rfl | ⟨e, he, hn⟩)
    · exact Or.inl rfl
    · exact Or.inr ⟨e.1.nodes, ⟨e, he, rfl⟩, hn⟩

/-- A game whose stored winner field is the one recomputed from its board.
`Game::new` establishes this and `make_move` preserves it, so every game
reachable through the public interface is consistent. -/
def Consistent (g : Game) : Prop :=
  g.winner = to_winner g.board

instance (g : Game) : Decidable (Consistent g) :=
  inferInstanceAs (Decidable (g.winner = to_winner g.board))

/-- Every successor state is consistent, by construction of `make_move`. -/
theorem successor_consistent (g : Game) (rc : Fin 3 × Fin 3) :
    Consistent (successor g rc) := rfl

/-- If `to_winner` found no outcome, the board has an empty cell (otherwise
the tie branch would have fired). -/
theorem exists_empty_of_to_winner_none (b : Board) (h : to_winner b = none) :
    ∃ i j, b i j = none := by
  by_contra hc
  push_neg at hc
  unfold to_winner at h
  split at h
  · exact absurd h (by simp)
  split at h
  · exact absurd h (by simp)
  split at h
  · exact absurd h (by simp)
  split at h
  · exact absurd h (by simp)
  rw [if_pos] at h
  · exact absurd h (by simp)
  · intro i j
    rw [Option.isSome_iff_ne_none]
    exact hc i j

/-- An unfinished game has winner `none`. -/
theorem winner_none_of_not_finished (g : Game) (hf : g.is_finished = false) :
    g.winner = none := by
  cases hwin : g.winner with
  | none => rfl
  | some w =>
    rw [Game.is_finished, hwin] at hf
    simp at hf

/-- A consistent unfinished game has at least one valid move. -/
theorem valid_moves_ne_nil (g : Game) (hg : Consistent g)
    (hf : g.is_finished = false) : g.valid_moves ≠ [] := by
  have hw : g.winner = none := winner_none_of_not_finished g hf
  have hb : to_winner g.board = none := hg.symm.trans hw
  obtain ⟨i, j, hij⟩ := exists_empty_of_to_winner_none _ hb
  intro hnil
  have hmem := (mem_valid_moves g (i, j)).mpr hij
  rw [hnil] at hmem
  exact absurd hmem (List.not_mem_nil _)

/-- A consistent unfinished game has at least one successor. -/
theorem next_games_ne_nil (g : Game) (hg : Consistent g)
    (hf : g.is_finished = false) : next_games g ≠ [] := by
  rw [next_games_eq g hf]
  simpa using valid_moves_ne_nil g hg hf

/-- Every node of a built tree is itself a built tree, of a game that is
consistent whenever it is not the root and, if the root is consistent,
always. -/
theorem mem_nodes_fromGame (k : Nat) : ∀ g : Game, emptyCount g ≤ k →
    ∀ n ∈ (GameTree.fromGame g).nodes,
      ∃ g', n = GameTree.fromGame g' ∧ (Consistent g → Consistent g') := by
  induction k with
  | zero =>
    intro g hk n hn
    rw [fromGame_eq] at hn
    by_cases hf : g.is_finished
    · rw [if_pos hf] at hn
      rw [mem_nodes_iff] at hn
      rcases hn with rfl | ⟨e, he, _⟩
      · exact ⟨g, by rw [fromGame_eq, if_pos hf], fun h => h⟩
      · exact absurd he (List.not_mem_nil _)
    · rw [if_neg hf] at hn
      rw [mem_nodes_iff] at hn
      simp only [Bool.not_eq_true] at hf
      rcases hn with rfl | ⟨e, he, hne⟩
      · exact ⟨g, by rw [fromGame_eq, if_neg (by simp [hf])], fun h => h⟩
      · obtain ⟨g2, hg2, rfl⟩ := List.mem_map.mp he
        have := emptyCount_lt_of_mem_next_games g g2 hf hg2
        omega
  | succ m ih =>
    intro g hk n hn
    rw [fromGame_eq] at hn
    by_cases hf : g.is_finished
    · rw [if_pos hf] at hn
      rw [mem_nodes_iff] at hn
      rcases hn with rfl | ⟨e, he, _⟩
      · exact ⟨g, by rw [fromGame_eq, if_pos hf], fun h => h⟩
      · exact absurd he (List.not_mem_nil _)
    · rw [if_neg hf] at hn
      rw [mem_nodes_iff] at hn
      simp only [Bool.not_eq_true] at hf
      rcases hn with rfl | ⟨e, he, hne⟩
      · exact ⟨g, by rw [fromGame_eq, if_neg (by simp [hf])], fun h => h⟩
      · obtain ⟨g2, hg2, rfl⟩ := List.mem_map.mp he
        have hlt := emptyCount_lt_of_mem_next_games g g2 hf hg2
        obtain ⟨g', hg', hcons⟩ := ih g2 (by omega) n hne
        refine ⟨g', hg', fun _ => hcons ?_⟩
        rw [next_games_eq g hf] at hg2
        obtain ⟨rc, _, rfl⟩ := List.mem_map.mp hg2
        exact successor_consistent g rc

/-- A list of values in `[0, 1]` sums to a value in `[0, length]`. -/
theorem list_sum_bounds (l : List Rat) (h : ∀ x ∈ l, 0 ≤ x ∧ x ≤ 1) :
    0 ≤ l.sum ∧ l.sum ≤ (l.length : Rat) := by
  induction l with
  | nil => simp
  | cons a t ih =>
    obtain ⟨ha0, ha1⟩ := h a (List.mem_cons_self a t)
    obtain ⟨ht0, ht1⟩ := ih fun x hx => h x (List.mem_cons_of_mem a hx)
    simp only [List.sum_cons, List.length_cons]
    push_cast
    constructor <;> linarith

/-- Three mapped sums whose pointwise total is 1 sum to the length. -/
theorem sum3_eq_length {α : Type} (l : List α) (f g h : α → Rat)
    (hfgh : ∀ x ∈ l, f x + g x + h x = 1) :
    (l.map f).sum + (l.map g).sum + (l.map h).sum = (l.length : Rat) := by
  induction l with
  | nil => simp
  | cons a t ih =>
    have h1 := hfgh a (List.mem_cons_self a t)
    have h2 := ih fun x hx => hfgh x (List.mem_cons_of_mem a hx)
    simp only [List.map_cons, List.sum_cons, List.length_cons]
    push_cast
    linarith

/-- The three aggregate probabilities of a built tree of a consistent game
sum to exactly 1, and each lies in `[0, 1]`. -/
theorem fromGame_probs (k : Nat) : ∀ g : Game, emptyCount g ≤ k → Consistent g →
    ((GameTree.fromGame g).x_wins + (GameTree.fromGame g).o_wins +
        (GameTree.fromGame g).ties = 1) ∧
      (0 ≤ (GameTree.fromGame g).x_wins ∧ (GameTree.fromGame g).x_wins ≤ 1) ∧
      (0 ≤ (GameTree.fromGame g).o_wins ∧ (GameTree.fromGame g).o_wins ≤ 1) ∧
      (0 ≤ (GameTree.fromGame g).ties ∧ (GameTree.fromGame g).ties ≤ 1) := by
  induction k with
  | zero =>
    intro g hk hg
    by_cases hf : g.is_finished
    · rw [fromGame_eq, if_pos hf, x_wins_mk, o_wins_mk, ties_mk,
        if_pos hf, if_pos hf, if_pos hf]
      have hw : g.winner.isSome = true := hf
      cases hwin : g.winner with
      | none => rw [hwin] at hw; simp at hw
      | some w => cases w <;> simp
    · simp only [Bool.not_eq_true] at hf
      have hb : to_winner g.board = none :=
        hg.symm.trans (winner_none_of_not_finished g hf)
      obtain ⟨i, j, hij⟩ := exists_empty_of_to_winner_none _ hb
      have hpos : 0 < emptyCount g := by
        apply Finset.card_pos.mpr
        exact ⟨(i, j), by simpa [emptyCount] using hij⟩
      omega
  | succ m ih =>
    intro g hk hg
    by_cases hf : g.is_finished
    · rw [fromGame_eq, if_pos hf, x_wins_mk, o_wins_mk, ties_mk,
        if_pos hf, if_pos hf, if_pos hf]
      have hw : g.winner.isSome = true := hf
      cases hwin : g.winner with
      | none => rw [hwin] at hw; simp at hw
      | some w => cases w <;> simp
    · simp only [Bool.not_eq_true] at hf
      rw [fromGame_eq, if_neg (by simp [hf]), x_wins_mk, o_wins_mk, ties_mk,
        if_neg (by simp [hf]), if_neg (by simp [hf]), if_neg (by simp [hf])]
      simp only [List.map_map, List.length_map, Function.comp_def]
      have hih : ∀ g2 ∈ next_games g,
          ((GameTree.fromGame g2).x_wins + (GameTree.fromGame g2).o_wins +
              (GameTree.fromGame g2).ties = 1) ∧
            (0 ≤ (GameTree.fromGame g2).x_wins ∧ (GameTree.fromGame g2).x_wins ≤ 1) ∧
            (0 ≤ (GameTree.fromGame g2).o_wins ∧ (GameTree.fromGame g2).o_wins ≤ 1) ∧
            (0 ≤ (GameTree.fromGame g2).ties ∧ (GameTree.fromGame g2).ties ≤ 1) := by
        intro g2 hg2
        have hlt := emptyCount_lt_of_mem_next_games g g2 hf hg2
        have hcons : Consistent g2 := by
          rw [next_games_eq g hf] at hg2
          obtain ⟨rc, _, rfl⟩ := List.mem_map.mp hg2
          exact successor_consistent g rc
        exact ih g2 (by omega) hcons
      set L := next_games g with hL
      have hlen : 0 < (L.length : Rat) := by
        have : L ≠ [] := next_games_ne_nil g hg hf
        have : 0 < L.length := List.length_pos.mpr this
        exact_mod_cast this
      have hsum3 : (L.map fun g2 => (GameTree.fromGame g2).x_wins).sum +
          (L.map fun g2 => (GameTree.fromGame g2).o_wins).sum +
          (L.map fun g2 => (GameTree.fromGame g2).ties).sum = (L.length : Rat) :=
        sum3_eq_length L _ _ _ fun g2 hg2 => (hih g2 hg2).1
      have hxb := list_sum_bounds (L.map fun g2 => (GameTree.fromGame g2).x_wins)
        (by intro x hx; obtain ⟨g2, hg2, rfl⟩ := List.mem_map.mp hx; exact (hih g2 hg2).2.1)
      have hob := list_sum_bounds (L.map fun g2 => (GameTree.fromGame g2).o_wins)
        (by intro x hx; obtain ⟨g2, hg2, rfl⟩ := List.mem_map.mp hx; exact (hih g2 hg2).2.2.1)
      have htb := list_sum_bounds (L.map fun g2 => (GameTree.fromGame g2).ties)
        (by intro x hx; obtain ⟨g2, hg2, rfl⟩ := List.mem_map.mp hx; exact (hih g2 hg2).2.2.2)
      simp only [List.length_map] at hxb hob htb
      refine ⟨?_, ⟨?_, ?_⟩, ⟨?_, ?_⟩, ⟨?_, ?_⟩⟩
      · rw [div_add_div_same, div_add_div_same, hsum3, div_self (ne_of_gt hlen)]
      · exact div_nonneg hxb.1 (le_of_lt hlen)
      · rw [div_le_one hlen]; exact hxb.2
      · exact div_nonneg hob.1 (le_of_lt hlen)
      · rw [div_le_one hlen]; exact hob.2
      · exact div_nonneg htb.1 (le_of_lt hlen)
      · rw [div_le_one hlen]; exact htb.2

/-- The cells of row `i`, in column order. -/
def rowCells (i : Fin 3) : List (Fin 3 × Fin 3) := [(i, 0), (i, 1), (i, 2)]

/-- The cells of column `j`, in row order. -/
def colCells (j : Fin 3) : List (Fin 3 × Fin 3) := [(0, j), (1, j), (2, j)]

/-- The cells of the main diagonal. -/
def mainDiagCells : List (Fin 3 × Fin 3) := [(0, 0), (1, 1), (2, 2)]

/-- The cells of the anti-diagonal. -/
def antiDiagCells : List (Fin 3 × Fin 3) := [(0, 2), (1, 1), (2, 0)]

/-- The eight lines of the grid in the spec's fixed order: rows, then
columns, then the main diagonal, then the anti-diagonal. -/
def allLines : List (List (Fin 3 × Fin 3)) :=
  ((List.finRange 3).map rowCells) ++ ((List.finRange 3).map colCells) ++
    [mainDiagCells, antiDiagCells]

/-- The owner of a line: the piece occupying all of its cells, if any. -/
def lineOwner (b : Board) : List (Fin 3 × Fin 3) → Option Piece
  | [] => none
  | c :: rest =>
    match b c.1 c.2 with
    | none => none
    | some p => if ∀ d ∈ rest, b d.1 d.2 = some p then some p else none

/-- Outcome detection in the spec's words: the first completed line in the
fixed order determines the winner; otherwise tie if every cell is occupied;
otherwise no outcome. -/
def to_winner_spec (b : Board) : Option Winner :=
  match allLines.findSome? fun l => (lineOwner b l).map pieceWinner with
  | some w => some w
  | none => if ∀ i, ∀ j, (b i j).isSome then some Winner.Tie else none

/-- The row check of the code agrees with the spec's line-owner reading. -/
theorem checkRow_eq_lineOwner (b : Board) (i : Fin 3) :
    checkRow b i = (lineOwner b (rowCells i)).map pieceWinner := by
  unfold checkRow lineOwner rowCells
  cases h : b i 0 with
  | none => simp [h]
  | some p =>
    have h3 : (∀ j, b i j = some p) ↔
        (b i 0 = some p ∧ b i 1 = some p ∧ b i 2 = some p) :=
      forall_fin3 fun j => b i j = some p
    by_cases h1 : b i 1 = some p <;> by_cases h2 : b i 2 = some p <;>
      simp [h, h1, h2, h3]

/-- The column check of the code agrees with the spec's line-owner reading. -/
theorem checkCol_eq_lineOwner (b : Board) (i : Fin 3) :
    checkCol b i = (lineOwner b (colCells i)).map pieceWinner := by
  unfold checkCol lineOwner colCells
  cases h : b 0 i with
  | none => simp [h]
  | some p =>
    have h3 : (∀ j, b j i = some p) ↔
        (b 0 i = some p ∧ b 1 i = some p ∧ b 2 i = some p) :=
      forall_fin3 fun j => b j i = some p
    by_cases h1 : b 1 i = some p <;> by_cases h2 : b 2 i = some p <;>
      simp [h, h1, h2, h3]

/-- The main-diagonal check agrees with the spec's line-owner reading. -/
theorem checkMainDiag_eq_lineOwner (b : Board) :
    checkMainDiag b = (lineOwner b mainDiagCells).map pieceWinner := by
  unfold checkMainDiag lineOwner mainDiagCells
  cases h : b 0 0 with
  | none => simp [h]
  | some p =>
    by_cases h1 : b 1 1 = some p <;> by_cases h2 : b 2 2 = some p <;>
      simp [h, h1, h2]

/-- The anti-diagonal check agrees with the spec's line-owner reading. -/
theorem checkAntiDiag_eq_lineOwner (b : Board) :
    checkAntiDiag b = (lineOwner b antiDiagCells).map pieceWinner := by
  unfold checkAntiDiag lineOwner antiDiagCells
  cases h : b 0 2 with
  | none => simp [h]
  | some p =>
    by_cases h1 : b 1 1 = some p <;> by_cases h2 : b 2 0 = some p <;>
      simp [h, h1, h2]

/-- Scanning the eight lines in the spec's order is the code's four checks
chained by `Option.or`. -/
theorem findSome?_allLines (b : Board) :
    (allLines.findSome? fun l => (lineOwner b l).map pieceWinner) =
      ((List.finRange 3).findSome? (checkRow b)).or
        (((List.finRange 3).findSome? (checkCol b)).or
          ((checkMainDiag b).or (checkAntiDiag b))) := by
  unfold allLines
  rw [List.findSome?_append, List.findSome?_append, List.findSome?_map,
    List.findSome?_map, List.findSome?_cons, List.findSome?_cons,
    List.findSome?_nil]
  rw [show ((fun l => (lineOwner b l).map pieceWinner) ∘ rowCells) = checkRow b
    from funext fun i => (checkRow_eq_lineOwner b i).symm]
  rw [show ((fun l => (lineOwner b l).map pieceWinner) ∘ colCells) = checkCol b
    from funext fun i => (checkCol_eq_lineOwner b i).symm]
  rw [← checkMainDiag_eq_lineOwner b, ← checkAntiDiag_eq_lineOwner b]
  cases checkMainDiag b <;> cases checkAntiDiag b <;> simp [Option.or_assoc]

/-- C2: outcome detection returns a mark's win exactly when some line is
entirely that mark's, checking rows, then columns, then the main diagonal,
then the anti-diagonal, with the first completed line determining the
result; tie when no line is complete but every cell is occupied; and none
otherwise — `to_winner` coincides with the spec's `to_winner_spec`. -/
theorem to_winner_eq_to_winner_spec (b : Board) : to_winner b = to_winner_spec b := by
  unfold to_winner to_winner_spec
  rw [findSome?_allLines]
  cases (List.finRange 3).findSome? (checkRow b) <;>
    cases (List.finRange 3).findSome? (checkCol b) <;>
      cases checkMainDiag b <;> cases checkAntiDiag b <;> simp

/-- All cells of the grid in row-major order. -/
def allCells : List (Fin 3 × Fin 3) :=
  (List.finRange 3).flatMap fun r => (List.finRange 3).map fun c => (r, c)

/-- `filter` distributes over `flatMap`. -/
theorem filter_flatMap_eq {α β : Type} (l : List α) (f : α → List β) (p : β → Bool) :
    (l.flatMap f).filter p = l.flatMap fun a => (f a).filter p := by
  induction l with
  | nil => rfl
  | cons a t ih => simp only [List.flatMap_cons, List.filter_append, ih]

/-- A `filterMap` by a guarded `some` is a `filter` followed by a `map`. -/
theorem filterMap_ite_eq {α β : Type} (l : List α) (f : α → β) (p : α → Prop)
    [DecidablePred p] :
    (l.filterMap fun a => if p a then some (f a) else none) =
      (l.filter fun a => decide (p a)).map f := by
  induction l with
  | nil => rfl
  | cons a t ih =>
    by_cases h : p a <;> simp [List.filterMap_cons, List.filter_cons, h, ih]

/-- `valid_moves` is the row-major cell list filtered to the empty cells. -/
theorem valid_moves_eq_filter (g : Game) :
    g.valid_moves = allCells.filter fun rc => decide (g.board rc.1 rc.2 = none) := by
  unfold Game.valid_moves allCells
  rw [filter_flatMap_eq]
  refine congrArg (List.flatMap (List.finRange 3)) (funext fun r => ?_)
  rw [filterMap_ite_eq (List.finRange 3) (fun c => (r, c))
    (fun c => g.board r c = none), List.filter_map]
  rfl

/-- Filtering by a predicate that differs from another only at `a`, where
the first holds and the second does not, erases exactly `a`. -/
theorem filter_eq_filter_erase {α : Type} [DecidableEq α] [BEq α] [LawfulBEq α]
    (l : List α)
    (hnd : l.Nodup) (P Q : α → Bool) (a : α) (hP : P a = true) (hQ : Q a = false)
    (hPQ : ∀ x, x ≠ a → P x = Q x) :
    l.filter Q = (l.filter P).erase a := by
  induction l with
  | nil => rfl
  | cons x t ih =>
    have hnd' : t.Nodup := (List.nodup_cons.mp hnd).2
    by_cases hx : x = a
    · subst hx
      rw [List.filter_cons_of_neg (by simp [hQ]), List.filter_cons_of_pos (by simp [hP]),
        List.erase_cons_head]
      have hxt : x ∉ t := (List.nodup_cons.mp hnd).1
      exact List.filter_congr fun y hy => (hPQ y fun h => hxt (h ▸ hy)).symm
    · have hQP := hPQ x hx
      cases hPx : P x with
      | true =>
        rw [List.filter_cons_of_pos (by simp [← hQP, hPx]),
          List.filter_cons_of_pos (by simp [hPx]),
          List.erase_cons_tail (by simp [hx]), ih hnd']
      | false =>
        rw [List.filter_cons_of_neg (by simp [← hQP, hPx]),
          List.filter_cons_of_neg (by simp [hPx]), ih hnd']

/-- After a successful move the valid moves are exactly the old ones with
the played cell removed. -/
theorem valid_moves_successor (g : Game) (rc : Fin 3 × Fin 3)
    (he : g.board rc.1 rc.2 = none) :
    (successor g rc).valid_moves = g.valid_moves.erase rc := by
  rw [valid_moves_eq_filter, valid_moves_eq_filter]
  apply filter_eq_filter_erase
  · decide
  · simp [he]
  · simp [successor, setCell]
  · intro x hx
    have hne : ¬(x.1 = rc.1 ∧ x.2 = rc.2) := fun hcon => hx (Prod.ext hcon.1 hcon.2)
    simp only [successor, setCell, hne, if_false, ite_false]

/-- A finished game: X has completed the top row; four cells stay empty. -/
def gWon : Game :=
  { board := ![![some Piece.X, some Piece.X, some Piece.X],
               ![some Piece.O, some Piece.O, none],
               ![none, none, none]]
    current_piece := Piece.O
    winner := some Winner.X }

/-- An unfinished game with exactly one empty cell, `(0, 2)`; playing it
completes X's top row. -/
def gOne : Game :=
  { board := ![![some Piece.X, some Piece.X, none],
               ![some Piece.O, some Piece.O, some Piece.X],
               ![some Piece.O, some Piece.X, some Piece.O]]
    current_piece := Piece.X
    winner := none }

/-- The game after X plays `(0, 2)` in `gOne`: the top row becomes X X X,
O is to move, and the recomputed winner is X's win. -/
def gChild : Game := successor gOne (0, 2)

/-- `to_char` from `game.rs`. -/
def to_char : Option Piece → Char
  | none => ' '
  | some Piece.X => 'X'
  | some Piece.O => 'O'

/-- The Rust `{:?}` rendering of the `winner` field. -/
def winnerDebug : Option Winner → String
  | none => "None"
  | some Winner.X => "Some(X)"
  | some Winner.O => "Some(O)"
  | some Winner.Tie => "Some(Tie)"

/-- One board row rendered as in `impl fmt::Display for Game`: the cells'
characters joined by `|`. -/
def rowDisplay (g : Game) (i : Fin 3) : String :=
  String.intercalate "|" ((List.finRange 3).map fun j => (to_char (g.board i j)).toString)

/-- `impl fmt::Display for Game` from `game.rs`: the rows joined by a
`-----` separator line, then the `Winner:` line. -/
def gameDisplay (g : Game) : String :=
  String.intercalate "\n-----\n" ((List.finRange 3).map fun i => rowDisplay g i) ++
    "\nWinner: " ++ winnerDebug g.winner

/-- One edge as rendered by `impl fmt::Display for GameTree`: the format
string pairs the label `O wins` with the cached `x_wins` field, `X wins`
with the cached `o_wins` field, and `Ties` with the cached `ties` field,
exactly as the Rust `format!` call passes its arguments.  The `f32`
formatting is abstracted by the `fmt` parameter. -/
def edgeDisplay (fmt : Rat → String) (e : Edge) : String :=
  gameDisplay e.child.game ++ "\nO wins: " ++ fmt e.x_wins ++
    "\nX wins: " ++ fmt e.o_wins ++ "\nTies: " ++ fmt e.ties

/-- `impl fmt::Display for GameTree` from `game_tree.rs`: the header, the
node's game, a blank line, then the edges joined by blank lines. -/
def treeDisplay (fmt : Rat → String) (t : GameTree) : String :=
  "Current State:\n" ++ gameDisplay t.game ++ "\n\n" ++
    String.intercalate "\n\n" (t.edges.map (edgeDisplay fmt))

/-- Row-major precedence on cell coordinates: earlier row, or same row and
earlier column. -/
def rowMajorLt (a b : Fin 3 × Fin 3) : Prop :=
  a.1 < b.1 ∨ (a.1 = b.1 ∧ a.2 < b.2)

instance : DecidableRel rowMajorLt := fun a b =>
  inferInstanceAs (Decidable (a.1 < b.1 ∨ (a.1 = b.1 ∧ a.2 < b.2)))

/-- On a finished game every `make_move` fails, so `next_games` is empty. -/
theorem next_games_of_finished (g : Game) (hf : g.is_finished = true) :
    next_games g = [] := by
  unfold next_games
  rw [List.filterMap_eq_nil_iff]
  intro rc _
  simp [Game.make_move, hf]

/-- The built tree's root owns the game it was built from. -/
theorem fromGame_game (g : Game) : (GameTree.fromGame g).game = g := by
  rw [fromGame_eq]
  split <;> rfl

/-- The successors of `gOne`: exactly one, `gChild`. -/
theorem next_games_gOne : next_games gOne = [gChild] := by
  rw [next_games_eq gOne (by decide), show gOne.valid_moves = [(0, 2)] from by decide]
  rfl

/-- The tree built from `gChild` is a leaf. -/
theorem fromGame_gChild : GameTree.fromGame gChild = GameTree.mk gChild [] := by
  rw [fromGame_eq, if_pos (by decide)]

/-- The leaf of `gChild` reports an X win with certainty. -/
theorem fromGame_gChild_stats :
    (GameTree.fromGame gChild).x_wins = 1 ∧ (GameTree.fromGame gChild).o_wins = 0 ∧
      (GameTree.fromGame gChild).ties = 0 := by
  refine ⟨?_, ?_, ?_⟩
  · rw [fromGame_gChild, x_wins_mk, if_pos (by decide), if_pos (by decide)]
  · rw [fromGame_gChild, o_wins_mk, if_pos (by decide), if_neg (by decide)]
  · rw [fromGame_gChild, ties_mk, if_pos (by decide), if_neg (by decide)]

/-- The tree built from `gOne` has exactly one edge, to the leaf of
`gChild`, caching that leaf's three statistics. -/
theorem fromGame_gOne_edges :
    (GameTree.fromGame gOne).edges =
      [(GameTree.fromGame gChild, (GameTree.fromGame gChild).x_wins,
        (GameTree.fromGame gChild).o_wins, (GameTree.fromGame gChild).ties)] := by
  rw [fromGame_eq, if_neg (by decide)]
  simp only [GameTree.edges]
  rw [next_games_gOne]
  rfl

/-- C1 (counterexample): on `gWon` the game is terminal (X has won) while
four cells remain empty, yet `valid_moves` is not empty — it returns those
four cells, refuting "empty iff the board is full or terminal". -/
theorem valid_moves_terminal_counterexample :
    gWon.is_finished = true ∧ gWon.winner = some Winner.X ∧
      gWon.valid_moves = [(1, 2), (2, 0), (2, 1), (2, 2)] ∧
      gWon.valid_moves ≠ [] := by
  refine ⟨by decide, by decide, by decide, by decide⟩

/-- C1 (amended): `valid_moves` returns the coordinates of exactly the
empty cells, ordered row-major, and is empty iff the board is full — the
stored outcome is not consulted, so a terminal board with empty cells still
has valid moves. -/
theorem valid_moves_characterization (g : Game) :
    (∀ rc : Fin 3 × Fin 3, rc ∈ g.valid_moves ↔ g.board rc.1 rc.2 = none) ∧
      g.valid_moves.Pairwise rowMajorLt ∧
      (g.valid_moves = [] ↔ ∀ i, ∀ j, (g.board i j).isSome) := by
  refine ⟨mem_valid_moves g, ?_, ?_, ?_⟩
  · rw [valid_moves_eq_filter]
    exact List.Pairwise.sublist (List.filter_sublist _) (by decide)
  · intro hnil i j
    by_contra hc
    have hmem := (mem_valid_moves g (i, j)).mpr (Option.not_isSome_iff_eq_none.mp hc)
    rw [hnil] at hmem
    exact absurd hmem (List.not_mem_nil _)
  · intro hfull
    rw [List.eq_nil_iff_forall_not_mem]
    intro rc hrc
    have h1 := (mem_valid_moves g rc).mp hrc
    have h2 := hfull rc.1 rc.2
    rw [h1] at h2
    exact absurd h2 (by simp)

/-- C3: on every node of a tree built from a consistent game, each of the
three outcome-probability functions returns, on a leaf, 1 when the leaf's
winner is the corresponding outcome and 0 otherwise, and, on a non-leaf,
the arithmetic mean over the node's edges of the same function applied to
each edge's child. -/
theorem outcome_probability_node (g : Game) (hg : Consistent g)
    (n : GameTree) (hn : n ∈ (GameTree.fromGame g).nodes) :
    (n.edges = [] →
      n.x_wins = (if n.game.winner = some Winner.X then 1 else 0) ∧
        n.o_wins = (if n.game.winner = some Winner.O then 1 else 0) ∧
        n.ties = (if n.game.winner = some Winner.Tie then 1 else 0)) ∧
      (n.edges ≠ [] →
        n.x_wins = (n.edges.map fun e => e.child.x_wins).sum / (n.edges.length : Rat) ∧
          n.o_wins = (n.edges.map fun e => e.child.o_wins).sum / (n.edges.length : Rat) ∧
          n.ties = (n.edges.map fun e => e.child.ties).sum / (n.edges.length : Rat)) := by
  obtain ⟨g', rfl, hcons⟩ := mem_nodes_fromGame (emptyCount g) g le_rfl n hn
  have hg' : Consistent g' := hcons hg
  by_cases hf : g'.is_finished
  · rw [fromGame_eq, if_pos hf]
    constructor
    · intro _
      simp only [GameTree.game]
      refine ⟨?_, ?_, ?_⟩
      · rw [x_wins_mk, if_pos hf]
      · rw [o_wins_mk, if_pos hf]
      · rw [ties_mk, if_pos hf]
    · intro hne
      simp only [GameTree.edges] at hne
      exact absurd rfl hne
  · have hf' : g'.is_finished = false := by simpa using hf
    rw [fromGame_eq, if_neg hf]
    constructor
    · intro h0
      simp only [GameTree.edges] at h0
      rw [List.map_eq_nil_iff] at h0
      exact absurd h0 (next_games_ne_nil g' hg' hf')
    · intro _
      simp only [GameTree.edges, Edge.child]
      refine ⟨?_, ?_, ?_⟩
      · rw [x_wins_mk, if_neg hf]
      · rw [o_wins_mk, if_neg hf]
      · rw [ties_mk, if_neg hf]

/-- C3 (witness): instantiated at the consistent one-move game `gOne` and
the root node of its built tree. -/
theorem outcome_probability_node_witness :
    Consistent gOne ∧
      ((GameTree.fromGame gOne).edges = [] →
        (GameTree.fromGame gOne).x_wins =
            (if (GameTree.fromGame gOne).game.winner = some Winner.X then 1 else 0) ∧
          (GameTree.fromGame gOne).o_wins =
            (if (GameTree.fromGame gOne).game.winner = some Winner.O then 1 else 0) ∧
          (GameTree.fromGame gOne).ties =
            (if (GameTree.fromGame gOne).game.winner = some Winner.Tie then 1 else 0)) ∧
      ((GameTree.fromGame gOne).edges ≠ [] →
        (GameTree.fromGame gOne).x_wins =
            ((GameTree.fromGame gOne).edges.map fun e => e.child.x_wins).sum /
              ((GameTree.fromGame gOne).edges.length : Rat) ∧
          (GameTree.fromGame gOne).o_wins =
            ((GameTree.fromGame gOne).edges.map fun e => e.child.o_wins).sum /
              ((GameTree.fromGame gOne).edges.length : Rat) ∧
          (GameTree.fromGame gOne).ties =
            ((GameTree.fromGame gOne).edges.map fun e => e.child.ties).sum /
              ((GameTree.fromGame gOne).edges.length : Rat)) :=
  ⟨by decide,
    outcome_probability_node gOne (by decide) (GameTree.fromGame gOne)
      (self_mem_nodes _)⟩

/-- C4: on every node of a tree built from a consistent game — in
particular from the initial empty board — the three outcome probabilities
sum to exactly 1, and each lies in `[0, 1]`.  The `f32` arithmetic of the
source is embedded as exact rational arithmetic, so the sum holds without
any tolerance. -/
theorem node_probabilities_sum (g : Game) (hg : Consistent g)
    (n : GameTree) (hn : n ∈ (GameTree.fromGame g).nodes) :
    n.x_wins + n.o_wins + n.ties = 1 ∧
      (0 ≤ n.x_wins ∧ n.x_wins ≤ 1) ∧ (0 ≤ n.o_wins ∧ n.o_wins ≤ 1) ∧
      (0 ≤ n.ties ∧ n.ties ≤ 1) := by
  obtain ⟨g', rfl, hcons⟩ := mem_nodes_fromGame (emptyCount g) g le_rfl n hn
  exact fromGame_probs (emptyCount g') g' le_rfl (hcons hg)

/-- C4 (witness): instantiated at the initial empty board `Game.new` and
the root node of its built tree. -/
theorem node_probabilities_sum_witness :
    Consistent Game.new ∧
      (GameTree.fromGame Game.new).x_wins + (GameTree.fromGame Game.new).o_wins +
          (GameTree.fromGame Game.new).ties = 1 ∧
        (0 ≤ (GameTree.fromGame Game.new).x_wins ∧
          (GameTree.fromGame Game.new).x_wins ≤ 1) ∧
        (0 ≤ (GameTree.fromGame Game.new).o_wins ∧
          (GameTree.fromGame Game.new).o_wins ≤ 1) ∧
        (0 ≤ (GameTree.fromGame Game.new).ties ∧
          (GameTree.fromGame Game.new).ties ≤ 1) :=
  ⟨by decide,
    node_probabilities_sum Game.new (by decide) (GameTree.fromGame Game.new)
      (self_mem_nodes _)⟩

/-- C5: `make_move` fails with `GameAlreadyOver` whenever the game is
already finished, with `InvalidPosition` carrying the offending coordinates
whenever they are out of range on an unfinished game, and with
`TileNotEmpty` carrying the occupant and the coordinates whenever the
in-range target cell is occupied on an unfinished game; in every failure
case the returned state is the unchanged game. -/
theorem make_move_failure (g : Game) :
    (∀ row col : Nat, g.is_finished = true →
        g.make_move row col = (some MoveError.GameAlreadyOver, g)) ∧
      (∀ row col : Nat, g.is_finished = false → 3 ≤ row ∨ 3 ≤ col →
        g.make_move row col = (some (MoveError.InvalidPosition row col), g)) ∧
      (∀ (r c : Fin 3) (p : Piece), g.is_finished = false → g.board r c = some p →
        g.make_move r.val c.val = (some (MoveError.TileNotEmpty p r.val c.val), g)) := by
  refine ⟨?_, ?_, ?_⟩
  · intro row col h
    simp [Game.make_move, h]
  · intro row col h1 h2
    simp only [Game.make_move, h1, Bool.false_eq_true, if_false]
    rw [dif_pos h2]
  · intro r c p h1 h2
    simp only [Game.make_move, h1, Bool.false_eq_true, if_false]
    rw [dif_neg (by omega)]
    simp only [Fin.eta]
    rw [h2]

/-- C5 (witness): the three failure kinds at concrete games — a move on
the finished `gWon`, an out-of-range move on `gOne`, and a move on the
occupied cell `(0, 0)` of `gOne`; each leaves the game unchanged. -/
theorem make_move_failure_witness :
    (gWon.is_finished = true ∧
        gWon.make_move 1 2 = (some MoveError.GameAlreadyOver, gWon)) ∧
      (gOne.is_finished = false ∧
        gOne.make_move 3 0 = (some (MoveError.InvalidPosition 3 0), gOne)) ∧
      (gOne.board 0 0 = some Piece.X ∧
        gOne.make_move 0 0 = (some (MoveError.TileNotEmpty Piece.X 0 0), gOne)) :=
  ⟨⟨by decide, (make_move_failure gWon).1 1 2 (by decide)⟩,
    ⟨by decide, (make_move_failure gOne).2.1 3 0 (by decide) (Or.inl (by omega))⟩,
    ⟨by decide, (make_move_failure gOne).2.2 0 0 Piece.X (by decide) (by decide)⟩⟩

/-- C6: on an unfinished game, a move to an in-range empty cell succeeds,
places the current mark there, leaves every other cell unchanged, flips the
turn, stores the winner recomputed from the new board, and removes exactly
the played coordinate from the valid moves (one fewer, in place). -/
theorem make_move_success_spec (g : Game) (r c : Fin 3)
    (hf : g.is_finished = false) (he : g.board r c = none) :
    (g.make_move r.val c.val).1 = none ∧
      (g.make_move r.val c.val).2.board r c = some g.current_piece ∧
      (∀ ij : Fin 3 × Fin 3, ij ≠ (r, c) →
        (g.make_move r.val c.val).2.board ij.1 ij.2 = g.board ij.1 ij.2) ∧
      (g.make_move r.val c.val).2.current_piece = g.current_piece.other ∧
      (g.make_move r.val c.val).2.winner =
        to_winner (g.make_move r.val c.val).2.board ∧
      (g.make_move r.val c.val).2.valid_moves = g.valid_moves.erase (r, c) ∧
      (g.make_move r.val c.val).2.valid_moves.length + 1 =
        g.valid_moves.length := by
  rw [make_move_success g r c hf he]
  refine ⟨rfl, by simp [successor, setCell], ?_, rfl, rfl, ?_, ?_⟩
  · intro ij hij
    have hne : ¬(ij.1 = r ∧ ij.2 = c) := fun hcon => hij (Prod.ext hcon.1 hcon.2)
    simp only [successor, setCell, hne, if_false, ite_false]
  · exact valid_moves_successor g (r, c) he
  · rw [valid_moves_successor g (r, c) he]
    have hm : (r, c) ∈ g.valid_moves := (mem_valid_moves g (r, c)).mpr he
    have h1 := List.length_erase_of_mem hm
    have h2 : 0 < g.valid_moves.length :=
      List.length_pos.mpr (List.ne_nil_of_mem hm)
    omega

/-- C6 (witness): instantiated at `gOne` and its single empty cell
`(0, 2)`. -/
theorem make_move_success_spec_witness :
    gOne.is_finished = false ∧ gOne.board 0 2 = none ∧
      ((gOne.make_move 0 2).1 = none ∧
        (gOne.make_move 0 2).2.board 0 2 = some gOne.current_piece ∧
        (∀ ij : Fin 3 × Fin 3, ij ≠ (0, 2) →
          (gOne.make_move 0 2).2.board ij.1 ij.2 = gOne.board ij.1 ij.2) ∧
        (gOne.make_move 0 2).2.current_piece = gOne.current_piece.other ∧
        (gOne.make_move 0 2).2.winner = to_winner (gOne.make_move 0 2).2.board ∧
        (gOne.make_move 0 2).2.valid_moves = gOne.valid_moves.erase (0, 2) ∧
        (gOne.make_move 0 2).2.valid_moves.length + 1 =
          gOne.valid_moves.length) :=
  ⟨by decide, by decide,
    make_move_success_spec gOne 0 2 (by decide) (by decide)⟩

/-- C7: a tree built from a consistent game is a leaf (no edges) exactly
when the game is finished; its edges are one per successor, in the order
the successors are generated; hence an unfinished game's tree has at least
one edge. -/
theorem build_leaf_iff (g : Game) (hg : Consistent g) :
    ((GameTree.fromGame g).edges = [] ↔ g.is_finished = true) ∧
      (GameTree.fromGame g).edges.map Edge.child =
        (next_games g).map GameTree.fromGame ∧
      (g.is_finished = false → (GameTree.fromGame g).edges ≠ []) := by
  by_cases hf : g.is_finished
  · rw [fromGame_eq, if_pos hf]
    simp only [GameTree.edges]
    refine ⟨by simp [hf], ?_, ?_⟩
    · rw [next_games_of_finished g hf]
      rfl
    · intro h0
      rw [h0] at hf
      simp at hf
  · have hf' : g.is_finished = false := by simpa using hf
    rw [fromGame_eq, if_neg hf]
    simp only [GameTree.edges]
    have hne := next_games_ne_nil g hg hf'
    refine ⟨?_, ?_, ?_⟩
    · rw [List.map_eq_nil_iff]
      constructor
      · intro h0
        exact absurd h0 hne
      · intro h0
        rw [h0] at hf'
        simp at hf'
    · simp [List.map_map, Function.comp_def, Edge.child]
    · intro _
      rw [Ne, List.map_eq_nil_iff]
      exact hne

/-- C7 (witness): instantiated at the consistent games `gOne` (unfinished,
one edge) — the hypothesis is discharged by computation. -/
theorem build_leaf_iff_witness :
    Consistent gOne ∧
      (((GameTree.fromGame gOne).edges = [] ↔ gOne.is_finished = true) ∧
        (GameTree.fromGame gOne).edges.map Edge.child =
          (next_games gOne).map GameTree.fromGame ∧
        (gOne.is_finished = false → (GameTree.fromGame gOne).edges ≠ [])) :=
  ⟨by decide, build_leaf_iff gOne (by decide)⟩

/-- C8: on an unfinished game every coordinate returned by `valid_moves`
is placeable — `make_move` succeeds on it — and `next_games` returns one
new game per valid move, in the same order, each obtained by applying that
single move to a copy of the game; the Rust assertion can therefore never
fire. -/
theorem next_games_total (g : Game) (hf : g.is_finished = false) :
    (∀ rc ∈ g.valid_moves, (g.make_move rc.1.val rc.2.val).1 = none) ∧
      next_games g =
        g.valid_moves.map fun rc => (g.make_move rc.1.val rc.2.val).2 := by
  constructor
  · intro rc hrc
    rw [make_move_success g rc.1 rc.2 hf ((mem_valid_moves g rc).mp hrc)]
  · rw [next_games_eq g hf]
    refine List.map_congr_left fun rc hrc => ?_
    rw [make_move_success g rc.1 rc.2 hf ((mem_valid_moves g rc).mp hrc)]

/-- C8 (witness): instantiated at the unfinished game `gOne`. -/
theorem next_games_total_witness :
    gOne.is_finished = false ∧
      (∀ rc ∈ gOne.valid_moves, (gOne.make_move rc.1.val rc.2.val).1 = none) ∧
      next_games gOne =
        gOne.valid_moves.map fun rc => (gOne.make_move rc.1.val rc.2.val).2 :=
  ⟨by decide, next_games_total gOne (by decide)⟩

/-- C9: on every edge of every node of a built tree, the three cached
statistics equal the recursive outcome-probability functions applied to
that edge's child. -/
theorem edge_cache_eq (g : Game) (n : GameTree)
    (hn : n ∈ (GameTree.fromGame g).nodes) (e : Edge) (he : e ∈ n.edges) :
    e.x_wins = e.child.x_wins ∧ e.o_wins = e.child.o_wins ∧ e.ties = e.child.ties := by
  obtain ⟨g', rfl, -⟩ := mem_nodes_fromGame (emptyCount g) g le_rfl n hn
  rw [fromGame_eq] at he
  by_cases hf : g'.is_finished
  · rw [if_pos hf] at he
    simp only [GameTree.edges] at he
    exact absurd he (List.not_mem_nil _)
  · rw [if_neg hf] at he
    simp only [GameTree.edges] at he
    obtain ⟨g2, _, rfl⟩ := List.mem_map.mp he
    exact ⟨rfl, rfl, rfl⟩

/-- C9 (witness): instantiated at the root of `gOne`'s tree and its single
edge, whose cached values are the child leaf's statistics. -/
theorem edge_cache_eq_witness :
    (GameTree.fromGame gOne).edges =
        [(GameTree.fromGame gChild, (GameTree.fromGame gChild).x_wins,
          (GameTree.fromGame gChild).o_wins, (GameTree.fromGame gChild).ties)] ∧
      Edge.x_wins (GameTree.fromGame gChild, (GameTree.fromGame gChild).x_wins,
          (GameTree.fromGame gChild).o_wins, (GameTree.fromGame gChild).ties) =
        (Edge.child (GameTree.fromGame gChild, (GameTree.fromGame gChild).x_wins,
          (GameTree.fromGame gChild).o_wins, (GameTree.fromGame gChild).ties)).x_wins ∧
      Edge.o_wins (GameTree.fromGame gChild, (GameTree.fromGame gChild).x_wins,
          (GameTree.fromGame gChild).o_wins, (GameTree.fromGame gChild).ties) =
        (Edge.child (GameTree.fromGame gChild, (GameTree.fromGame gChild).x_wins,
          (GameTree.fromGame gChild).o_wins, (GameTree.fromGame gChild).ties)).o_wins ∧
      Edge.ties (GameTree.fromGame gChild, (GameTree.fromGame gChild).x_wins,
          (GameTree.fromGame gChild).o_wins, (GameTree.fromGame gChild).ties) =
        (Edge.child (GameTree.fromGame gChild, (GameTree.fromGame gChild).x_wins,
          (GameTree.fromGame gChild).o_wins, (GameTree.fromGame gChild).ties)).ties :=
  ⟨fromGame_gOne_edges,
    edge_cache_eq gOne (GameTree.fromGame gOne) (self_mem_nodes _) _
      (by rw [fromGame_gOne_edges]; exact List.mem_cons_self _ _)⟩

/-- C10: evaluating the tree rendering at `gOne` exhibits the label/value
mismatch of the `Display` implementation: the single edge caches
`x_wins = 1` and `o_wins = 0`, yet the rendered text puts the value 1 (the
cached `x_wins`) on the `O wins:` line and the value 0 (the cached
`o_wins`) on the `X wins:` line, after a `Current State:` header.  The
number formatting of `f32` is abstracted by `fmt`. -/
theorem tree_display_at_gOne (fmt : Rat → String) :
    (GameTree.fromGame gOne).edges.map Edge.x_wins = [1] ∧
      (GameTree.fromGame gOne).edges.map Edge.o_wins = [0] ∧
      treeDisplay fmt (GameTree.fromGame gOne) =
        "Current State:\n" ++ gameDisplay gOne ++ "\n\n" ++
          (gameDisplay gChild ++ "\nO wins: " ++ fmt 1 ++
            "\nX wins: " ++ fmt 0 ++ "\nTies: " ++ fmt 0) := by
  obtain ⟨hx, ho, ht⟩ := fromGame_gChild_stats
  refine ⟨?_, ?_, ?_⟩
  · rw [fromGame_gOne_edges]
    simp [Edge.x_wins, hx]
  · rw [fromGame_gOne_edges]
    simp [Edge.o_wins, ho]
  · unfold treeDisplay
    rw [fromGame_game, fromGame_gOne_edges]
    simp only [List.map_cons, List.map_nil]
    rw [show ∀ x : String, String.intercalate "\n\n" [x] = x from fun x => rfl]
    unfold edgeDisplay
    simp only [Edge.child, Edge.x_wins, Edge.o_wins, Edge.ties]
    rw [fromGame_game, hx, ho, ht]
